import Mathlib

/-!
Shallow embedding of the Poseidon incremental Merkle tree maintained in
src/src/lib.rs.  Byte strings are modelled as lists of naturals, the
`Result` type of the Rust API is modelled by `RustResult` (whose third
constructor `crashed` stands for an abnormal termination of the process,
i.e. a Rust panic), and the external Poseidon compression function is an
arbitrary parameter `H : Bytes32 -> Bytes32 -> Bytes32` of the operations
that use it.  The process-wide hasher lock of the source always succeeds
in this single-threaded semantics, so `PoseidonLockError` is never
produced.  All machine integers of the source (`u32`, `usize`) stay far
below 2 ^ 32 on every reachable state, so they are modelled as `Nat`;
the one place where `u32` wrap-around is observable (`levels - 1` in
`new` when `levels = 0`) is modelled explicitly.
-/

/-- A 32-byte value (`[u8; 32]` in the source). -/
abbrev Bytes32 : Type := List Nat

/-- The all-zero 32-byte value `[0; 32]`. -/
def zero32 : Bytes32 := List.replicate 32 0

/-- `pub const MAX_LEVELS: usize = 20;` -/
def MAX_LEVELS : Nat := 20

def zerosTable : List Bytes32 :=
  [[0x28, 0x94, 0x0d, 0xee, 0xac, 0xd1, 0xca, 0x28,
    0x31, 0x33, 0x68, 0x74, 0xe8, 0x74, 0x29, 0xdb,
    0x0e, 0x72, 0x8a, 0x67, 0xa4, 0x72, 0xb7, 0xac,
    0x81, 0x95, 0xc4, 0x3c, 0x2f, 0xb1, 0x30, 0x09],
   [0x13, 0x8b, 0xfd, 0xb7, 0x91, 0xd8, 0xba, 0xd9,
    0x8a, 0x50, 0xc8, 0x2e, 0xa1, 0xef, 0x62, 0x4f,
    0xeb, 0x03, 0xed, 0x9b, 0x7b, 0xbd, 0xb3, 0x48,
    0x55, 0x1a, 0x6b, 0x34, 0x7f, 0xfd, 0x56, 0x1c],
   [0x00, 0x5e, 0xf3, 0xbb, 0xa3, 0x6e, 0x2d, 0x71,
    0x45, 0x75, 0xef, 0x75, 0xc6, 0xec, 0x27, 0xc6,
    0x0e, 0x05, 0x93, 0xfb, 0x7b, 0xd4, 0x01, 0x2a,
    0x33, 0x0b, 0xc0, 0x65, 0xfb, 0x79, 0x08, 0x37],
   [0x10, 0xc7, 0x03, 0x6d, 0x8a, 0x63, 0xd1, 0x40,
    0xd7, 0x7c, 0x6a, 0xc1, 0x21, 0xc2, 0xef, 0x50,
    0x2c, 0xa8, 0x37, 0x03, 0x91, 0x3d, 0x34, 0x97,
    0x48, 0x17, 0x54, 0x31, 0x1c, 0xf8, 0x12, 0xa1],
   [0x1e, 0x54, 0xdf, 0x31, 0x58, 0xcf, 0x89, 0x80,
    0x2f, 0x13, 0xf7, 0x22, 0x65, 0xf2, 0x6c, 0x3f,
    0x28, 0x13, 0x91, 0x46, 0x57, 0xcc, 0xe8, 0xfe,
    0x1c, 0x68, 0xc8, 0x1c, 0x6f, 0x84, 0xb5, 0xe3],
   [0x07, 0xf8, 0x79, 0x07, 0xf4, 0x8e, 0x61, 0x7a,
    0x18, 0x4d, 0x93, 0x59, 0x64, 0x50, 0xb3, 0xa6,
    0x8a, 0x30, 0xc0, 0xdf, 0xdf, 0x93, 0x16, 0x4a,
    0x0a, 0xf9, 0x63, 0xdd, 0xcc, 0xc0, 0x4c, 0xc7],
   [0x1b, 0xca, 0xbd, 0x63, 0x5e, 0x6f, 0x84, 0x5b,
    0x50, 0x39, 0xcb, 0xf8, 0x27, 0xb5, 0x28, 0x12,
    0x1e, 0xc3, 0x4a, 0x2a, 0x3f, 0x68, 0x0f, 0x27,
    0xf8, 0x84, 0x56, 0xc4, 0x76, 0x62, 0xec, 0x32],
   [0x03, 0x2d, 0x93, 0x0e, 0x15, 0x6c, 0xce, 0x79,
    0x7f, 0xcd, 0x3f, 0x4a, 0x11, 0xdc, 0x41, 0x70,
    0x31, 0x5f, 0x8f, 0x83, 0x0c, 0xa6, 0xb0, 0xf3,
    0xbb, 0x71, 0x1e, 0x53, 0x37, 0xd6, 0x77, 0x3d],
   [0x17, 0x0a, 0xbe, 0x49, 0x47, 0xc1, 0x19, 0x5a,
    0x40, 0xa4, 0x88, 0x11, 0xe6, 0xb3, 0x62, 0xa0,
    0xa9, 0xc8, 0x68, 0x57, 0x33, 0xc1, 0x7f, 0x61,
    0x50, 0xc1, 0x96, 0xb9, 0x39, 0xfc, 0x21, 0xf8],
   [0x03, 0xd9, 0xe6, 0x48, 0xd6, 0x74, 0x27, 0xd0,
    0xa6, 0xe0, 0xa3, 0x0a, 0xad, 0x5d, 0x18, 0xaf,
    0x05, 0xb9, 0xe0, 0x4b, 0x41, 0xb4, 0x98, 0x5f,
    0xd4, 0x06, 0x2d, 0xe2, 0x71, 0x1c, 0xbe, 0xc1],
   [0x04, 0xa4, 0xfe, 0x12, 0x21, 0xc0, 0xd2, 0x1b,
    0x27, 0xb4, 0x9a, 0x23, 0xb7, 0x53, 0x47, 0xfe,
    0xc6, 0x90, 0x3b, 0xba, 0xd2, 0xf6, 0x12, 0x99,
    0xb9, 0x36, 0xbf, 0xb7, 0xb7, 0x83, 0xfc, 0xd7],
   [0x14, 0x32, 0xaa, 0x33, 0x5f, 0xcc, 0xae, 0xed,
    0xed, 0x95, 0x05, 0xa5, 0xa1, 0x42, 0xe8, 0x56,
    0x8a, 0xf6, 0x2c, 0xcc, 0x90, 0x81, 0x14, 0xbf,
    0xdc, 0xbe, 0x95, 0x6e, 0x11, 0x72, 0xad, 0x98],
   [0x18, 0x91, 0x90, 0x59, 0xfd, 0x2a, 0x3d, 0x7b,
    0xa6, 0xc4, 0x04, 0x9f, 0x42, 0xb7, 0x7b, 0x0e,
    0xcc, 0x6a, 0x23, 0x01, 0xe6, 0x65, 0x36, 0x38,
    0x7f, 0x11, 0xaa, 0x52, 0x2b, 0x3e, 0xd2, 0x7b],
   [0x06, 0x96, 0x2f, 0x22, 0x9c, 0x6f, 0x6e, 0x30,
    0x7a, 0x60, 0x22, 0x49, 0x33, 0xcb, 0x0d, 0x9c,
    0x9b, 0x61, 0xcf, 0x44, 0x2e, 0xd5, 0xb0, 0x36,
    0xe9, 0xcf, 0x36, 0x70, 0xa5, 0xaf, 0xf8, 0xd2],
   [0x01, 0x82, 0x1e, 0x95, 0xe5, 0x34, 0x93, 0x44,
    0x8e, 0x2d, 0x59, 0x9c, 0xb0, 0x45, 0xcd, 0x8e,
    0x8d, 0x21, 0xf3, 0xd2, 0xd7, 0xe8, 0xac, 0xf5,
    0xc9, 0x09, 0x68, 0x1e, 0xe2, 0x0a, 0x69, 0x26],
   [0x0e, 0xc5, 0xb2, 0x9a, 0xd4, 0x60, 0x9e, 0xfd,
    0x69, 0xbd, 0x92, 0x30, 0xc8, 0x9f, 0x82, 0xf3,
    0xfc, 0x15, 0x03, 0xf3, 0x8c, 0x21, 0x15, 0x07,
    0x3e, 0x82, 0x22, 0x61, 0x91, 0x92, 0x62, 0x96],
   [0x16, 0x4c, 0x52, 0x2e, 0xc8, 0xd8, 0xd0, 0x64,
    0xe9, 0xac, 0x53, 0x5c, 0x6a, 0x1b, 0x34, 0xfc,
    0x41, 0xa5, 0x05, 0xd8, 0x70, 0xeb, 0xc0, 0xad,
    0x55, 0x16, 0x72, 0x17, 0x1b, 0x75, 0xf3, 0x4c],
   [0x25, 0x2a, 0x2a, 0xcf, 0xa2, 0x2c, 0xa0, 0x9d,
    0x7f, 0x96, 0x5d, 0x01, 0x5b, 0x01, 0xcf, 0x3c,
    0xd5, 0x9f, 0xf8, 0x9d, 0x5b, 0x4f, 0x22, 0x95,
    0x64, 0xc2, 0x28, 0xf2, 0x50, 0x20, 0xed, 0xf1],
   [0x2f, 0x72, 0x9a, 0xb9, 0x99, 0x4d, 0x06, 0xf1,
    0xe6, 0xc0, 0x77, 0xc5, 0xea, 0xdb, 0xc4, 0x51,
    0xe7, 0x21, 0xd0, 0x29, 0x15, 0x9a, 0x30, 0xe4,
    0x7e, 0x32, 0xb1, 0x5c, 0xc6, 0xe2, 0x8a, 0xb7],
   [0x19, 0xbf, 0x0a, 0x91, 0xf2, 0x85, 0x2d, 0x3a,
    0x5b, 0xd3, 0x56, 0x5d, 0x9f, 0x77, 0xe0, 0x4f,
    0xb6, 0xde, 0x7b, 0xc3, 0x18, 0x75, 0x3f, 0xa5,
    0x28, 0x17, 0x00, 0xd7, 0x86, 0xe8, 0xab, 0xd1],
   [0x28, 0xc6, 0xd1, 0x55, 0xc4, 0xef, 0x4f, 0x87,
    0x09, 0x53, 0x23, 0xe8, 0x83, 0x2e, 0xc0, 0x54,
    0xfa, 0x7d, 0xab, 0x72, 0xa6, 0xfd, 0x22, 0x95,
    0x6b, 0x39, 0xe3, 0xdb, 0x18, 0x40, 0x29, 0x6f]]

/-- `fn zeros(i: u32) -> [u8; 32]`: the precomputed empty-subtree hashes of
the source, one constant per level `0..=20`; the `_ => panic!` arm of the
source match is modelled by the `none` result of the list lookup. -/
def zeros (i : Nat) : Option Bytes32 := zerosTable.get? i

/-- Convenience total version of `zeros` used where the source guarantees
the index is in range (`i < levels <= MAX_LEVELS`). -/
def zerosD (i : Nat) : Bytes32 := (zeros i).getD zero32

/-- `pub enum PoseidonMerkleTreeError` of the source. -/
inductive PoseidonMerkleTreeError where
  | InvalidLevels
  | MerkleTreeFull
  | PoseidonLockError
deriving DecidableEq

/-- Outcome of a Rust call: a `Result::Ok`, a `Result::Err`, or an
abnormal termination of the process (a panic). -/
inductive RustResult (A : Type) where
  | ok (val : A)
  | err (e : PoseidonMerkleTreeError)
  | crashed
deriving DecidableEq

/-- Whether a `RustResult` is an `Ok`. -/
def RustResult.isOk {A : Type} : RustResult A -> Bool
  | RustResult.ok _ => true
  | _ => false

/-- `pub struct PoseidonMerkleTree` of the source. -/
structure PoseidonMerkleTree where
  levels : Nat
  filled_subtrees : List Bytes32
  roots : List Bytes32
  current_root_index : Nat
  next_index : Nat
deriving DecidableEq

/-- `PoseidonMerkleTree::new`.  The source computes
`roots[0] = zeros(levels - 1)` on the `u32` value `levels`; for
`levels = 0` the subtraction wraps modulo `2 ^ 32` (in a debug build the
underflow itself aborts, in a release build `zeros(4294967295)` hits the
`panic!` arm), so either way the call crashes, which the embedding
expresses through the wrapped index falling outside `zerosTable`. -/
def PoseidonMerkleTree.new (levels : Nat) : RustResult PoseidonMerkleTree :=
  if levels > MAX_LEVELS then RustResult.err PoseidonMerkleTreeError.InvalidLevels
  else
    match zeros ((levels + 4294967296 - 1) % 4294967296) with
    | none => RustResult.crashed
    | some z0 =>
      RustResult.ok
        { levels := levels
          filled_subtrees := (List.range levels).map zerosD
          roots := (List.replicate MAX_LEVELS zero32).set 0 z0
          current_root_index := 0
          next_index := 0 }

/-- One iteration of the `for i in 0..self.levels` loop of
`PoseidonMerkleTree::insert`: selects the left and right operands from
the parity of `current_index`, hashes them, stores the left operand into
`filled_subtrees[i]` and halves the index.  Returns the new
`(current_index, current_level_hash, filled_subtrees)`. -/
def insertStep (H : Bytes32 -> Bytes32 -> Bytes32) (i idx : Nat) (cur : Bytes32)
    (fs : List Bytes32) : Nat × Bytes32 × List Bytes32 :=
  let left := if idx % 2 = 0 then cur else fs.getD i zero32
  let right := if idx % 2 = 0 then zerosD i else cur
  (idx / 2, H left right, fs.set i left)

/-- The whole `for i in 0..self.levels` loop of `insert`, with `fuel`
remaining iterations and `i` the current level.  Returns the final
`current_level_hash` (the new root) and the final `filled_subtrees`. -/
def insertLoop (H : Bytes32 -> Bytes32 -> Bytes32) :
    Nat -> Nat -> Nat -> Bytes32 -> List Bytes32 -> Bytes32 × List Bytes32
  | _, 0, _, cur, fs => (cur, fs)
  | i, fuel + 1, idx, cur, fs =>
    let st := insertStep H i idx cur fs
    insertLoop H (i + 1) fuel st.1 st.2.1 st.2.2

/-- `PoseidonMerkleTree::insert`.  Returns the value the source returns
together with the final state of the (in Rust, mutated in place) tree;
on the `MerkleTreeFull` early return the state is the unchanged input. -/
def PoseidonMerkleTree.insert (H : Bytes32 -> Bytes32 -> Bytes32) (t : PoseidonMerkleTree)
    (leaf : Bytes32) : RustResult Nat × PoseidonMerkleTree :=
  if t.next_index = 2 ^ t.levels then
    (RustResult.err PoseidonMerkleTreeError.MerkleTreeFull, t)
  else
    let rootFs := insertLoop H 0 t.levels t.next_index leaf t.filled_subtrees
    let newRootIndex := (t.current_root_index + 1) % MAX_LEVELS
    (RustResult.ok (t.next_index + 1),
     { t with
        filled_subtrees := rootFs.2
        roots := t.roots.set newRootIndex rootFs.1
        current_root_index := newRootIndex
        next_index := t.next_index + 1 })

/-- The cursor update `i = if i == 0 { MAX_LEVELS as u32 - 1 } else { i - 1 }`
of the scan loop of `is_known_root`. -/
def stepBack (i : Nat) : Nat := if i = 0 then MAX_LEVELS - 1 else i - 1

/-- The `for _ in 0..MAX_LEVELS` scan loop of `is_known_root`: `i` is the
slot currently inspected, the second argument the remaining iterations. -/
def isKnownRootLoop (roots : List Bytes32) (root : Bytes32) : Nat -> Nat -> Bool
  | _, 0 => false
  | i, fuel + 1 =>
    if roots.getD i zero32 = root then true
    else isKnownRootLoop roots root (stepBack i) fuel

/-- `PoseidonMerkleTree::is_known_root`. -/
def PoseidonMerkleTree.is_known_root (t : PoseidonMerkleTree) (root : Bytes32) : Bool :=
  if root = zero32 then false
  else isKnownRootLoop t.roots root t.current_root_index MAX_LEVELS

/-- Runs `insert` on each leaf in turn, recording the root each
successful insertion writes into the history (`roots[current_root_index]`
of the post-state); `none` as soon as one insertion does not succeed. -/
def insertTrace (H : Bytes32 -> Bytes32 -> Bytes32) (t : PoseidonMerkleTree) :
    List Bytes32 -> Option (PoseidonMerkleTree × List Bytes32)
  | [] => some (t, [])
  | leaf :: rest =>
    match PoseidonMerkleTree.insert H t leaf with
    | (RustResult.ok _, t') =>
      match insertTrace H t' rest with
      | some (tf, rs) => some (tf, t'.roots.getD t'.current_root_index zero32 :: rs)
      | none => none
    | (RustResult.err _, _) => none
    | (RustResult.crashed, _) => none

/-- The state `new levels` builds for `1 <= levels <= MAX_LEVELS`. -/
def newTree (levels : Nat) : PoseidonMerkleTree :=
  { levels := levels
    filled_subtrees := (List.range levels).map zerosD
    roots := (List.replicate MAX_LEVELS zero32).set 0 (zerosD (levels - 1))
    current_root_index := 0
    next_index := 0 }

/-- The states reachable from a successful construction by repeated
successful insertions. -/
inductive Reachable (H : Bytes32 -> Bytes32 -> Bytes32) : PoseidonMerkleTree -> Prop where
  | base (d : Nat) (t : PoseidonMerkleTree) : PoseidonMerkleTree.new d = RustResult.ok t -> Reachable H t
  | step (t : PoseidonMerkleTree) (leaf : Bytes32) (n : Nat) (t' : PoseidonMerkleTree) :
      Reachable H t -> PoseidonMerkleTree.insert H t leaf = (RustResult.ok n, t') -> Reachable H t'

/-- `m`-fold iteration of `stepBack`: the slot `is_known_root` inspects
after `m` backward steps from its starting cursor. -/
def iterStepBack : Nat -> Nat -> Nat
  | 0, i => i
  | m + 1, i => stepBack (iterStepBack m i)

/-- Modelled from the spec: the per-level transformation of section 4.3,
"If index is even ... Compute current = Hash(current, zero_value(i)),
store the pre-hash left operand into frontier[i]; if index is odd,
compute current = Hash(frontier[i], current), frontier[i] is left
unchanged; advance index = index / 2."  Written from the wording of the
specification for comparison with the loop of the source. -/
def specWalk (H : Bytes32 -> Bytes32 -> Bytes32) :
    Nat -> Nat -> Nat -> Bytes32 -> List Bytes32 -> Bytes32 × List Bytes32
  | _, 0, _, cur, fr => (cur, fr)
  | i, fuel + 1, idx, cur, fr =>
    if idx % 2 = 0 then specWalk H (i + 1) fuel (idx / 2) (H cur (zerosD i)) (fr.set i cur)
    else specWalk H (i + 1) fuel (idx / 2) (H (fr.getD i zero32) cur) fr

/-- Modelled from the spec: the whole insertion of section 4.3 for a
non-full tree, walking the levels with `specWalk` and then appending the
new root: "history_cursor = (history_cursor + 1) mod MAX_DEPTH;
root_history[history_cursor] = current; leaf_count += 1; returns the
updated leaf_count." -/
def insertSpec (H : Bytes32 -> Bytes32 -> Bytes32) (t : PoseidonMerkleTree)
    (leaf : Bytes32) : RustResult Nat × PoseidonMerkleTree :=
  let walk := specWalk H 0 t.levels t.next_index leaf t.filled_subtrees
  let cursor := (t.current_root_index + 1) % MAX_LEVELS
  (RustResult.ok (t.next_index + 1),
   { t with
      filled_subtrees := walk.2
      roots := t.roots.set cursor walk.1
      current_root_index := cursor
      next_index := t.next_index + 1 })

/-! ### List helper lemmas -/

theorem set_getD_self {A : Type} (l : List A) (i : Nat) (d : A) :
    l.set i (l.getD i d) = l := by
  induction l generalizing i with
  | nil => rfl
  | cons a l ih =>
    cases i with
    | zero => rfl
    | succ j => simpa using ih j

theorem getD_set_eq {A : Type} (l : List A) (i : Nat) (v d : A) (h : i < l.length) :
    (l.set i v).getD i d = v := by
  induction l generalizing i with
  | nil => simp at h
  | cons a l ih =>
    cases i with
    | zero => rfl
    | succ j => simpa using ih j (by simpa using h)

theorem getD_set_ne {A : Type} (l : List A) (i j : Nat) (v d : A) (h : i ≠ j) :
    (l.set i v).getD j d = l.getD j d := by
  induction l generalizing i j with
  | nil => rfl
  | cons a l ih =>
    cases i with
    | zero => cases j with
      | zero => exact absurd rfl h
      | succ j' => rfl
    | succ i' => cases j with
      | zero => rfl
      | succ j' => simpa using ih i' j' (by omega)

theorem getD_replicate {A : Type} (n i : Nat) (a d : A) (h : i < n) :
    (List.replicate n a).getD i d = a := by
  induction n generalizing i with
  | zero => omega
  | succ m ih =>
    cases i with
    | zero => rfl
    | succ j => simpa [List.replicate] using ih j (by omega)

theorem nodup_getD_inj {A : Type} (l : List A) (d : A) (h : l.Nodup) (i j : Nat)
    (hi : i < l.length) (hj : j < l.length) (he : l.getD i d = l.getD j d) : i = j := by
  rw [List.getD_eq_getElem l d hi, List.getD_eq_getElem l d hj] at he
  exact List.Nodup.getElem_inj_iff h |>.mp he

theorem getD_map_range {A : Type} (f : Nat → A) (n i : Nat) (d : A) (h : i < n) :
    ((List.range n).map f).getD i d = f i := by
  rw [List.getD_eq_getElem _ d (by simpa using h)]
  simp [h]


/-! ### The insertion loop agrees with the walk described by the spec -/

theorem insertStep_even (H : Bytes32 → Bytes32 → Bytes32) (i idx : Nat) (cur : Bytes32)
    (fs : List Bytes32) (h : idx % 2 = 0) :
    insertStep H i idx cur fs = (idx / 2, H cur (zerosD i), fs.set i cur) := by
  simp [insertStep, h]

theorem insertStep_odd (H : Bytes32 → Bytes32 → Bytes32) (i idx : Nat) (cur : Bytes32)
    (fs : List Bytes32) (h : idx % 2 = 1) :
    insertStep H i idx cur fs = (idx / 2, H (fs.getD i zero32) cur, fs) := by
  have h0 : ¬ idx % 2 = 0 := by omega
  simp only [insertStep, if_neg h0]
  rw [set_getD_self]

theorem insertLoop_succ (H : Bytes32 → Bytes32 → Bytes32) (i n idx : Nat) (cur : Bytes32)
    (fs : List Bytes32) :
    insertLoop H i (n + 1) idx cur fs =
      insertLoop H (i + 1) n (insertStep H i idx cur fs).1
        (insertStep H i idx cur fs).2.1 (insertStep H i idx cur fs).2.2 := rfl

theorem specWalk_succ (H : Bytes32 → Bytes32 → Bytes32) (i n idx : Nat) (cur : Bytes32)
    (fs : List Bytes32) :
    specWalk H i (n + 1) idx cur fs =
      if idx % 2 = 0 then specWalk H (i + 1) n (idx / 2) (H cur (zerosD i)) (fs.set i cur)
      else specWalk H (i + 1) n (idx / 2) (H (fs.getD i zero32) cur) fs := rfl

theorem insertLoop_eq_specWalk (H : Bytes32 → Bytes32 → Bytes32) :
    ∀ (fuel i idx : Nat) (cur : Bytes32) (fs : List Bytes32),
      insertLoop H i fuel idx cur fs = specWalk H i fuel idx cur fs := by
  intro fuel
  induction fuel with
  | zero => intro i idx cur fs; rfl
  | succ n ih =>
    intro i idx cur fs
    rcases Nat.mod_two_eq_zero_or_one idx with h | h
    · rw [insertLoop_succ, insertStep_even H i idx cur fs h, specWalk_succ, if_pos h]
      exact ih (i + 1) (idx / 2) (H cur (zerosD i)) (fs.set i cur)
    · rw [insertLoop_succ, insertStep_odd H i idx cur fs h, specWalk_succ,
        if_neg (by omega : ¬ idx % 2 = 0)]
      exact ih (i + 1) (idx / 2) (H (fs.getD i zero32) cur) fs

/-! ### Characterization of insert -/

theorem insert_full (H : Bytes32 → Bytes32 → Bytes32) (t : PoseidonMerkleTree)
    (leaf : Bytes32) (h : t.next_index = 2 ^ t.levels) :
    PoseidonMerkleTree.insert H t leaf =
      (RustResult.err PoseidonMerkleTreeError.MerkleTreeFull, t) := by
  unfold PoseidonMerkleTree.insert
  rw [if_pos h]

theorem insert_not_full (H : Bytes32 → Bytes32 → Bytes32) (t : PoseidonMerkleTree)
    (leaf : Bytes32) (h : ¬ t.next_index = 2 ^ t.levels) :
    PoseidonMerkleTree.insert H t leaf =
      (RustResult.ok (t.next_index + 1),
       { t with
          filled_subtrees := (insertLoop H 0 t.levels t.next_index leaf t.filled_subtrees).2
          roots := t.roots.set ((t.current_root_index + 1) % MAX_LEVELS)
                     (insertLoop H 0 t.levels t.next_index leaf t.filled_subtrees).1
          current_root_index := (t.current_root_index + 1) % MAX_LEVELS
          next_index := t.next_index + 1 }) := by
  unfold PoseidonMerkleTree.insert
  rw [if_neg h]

/-! ### Characterization of new -/

theorem zeros_eq_some (d : Nat) (h : d < 21) : zeros d = some (zerosD d) := by
  unfold zerosD
  cases hq : zeros d with
  | none =>
    exfalso
    unfold zeros at hq
    rw [List.get?_eq_none] at hq
    have hlen : zerosTable.length = 21 := rfl
    omega
  | some z => rfl

theorem new_ok_iff (d : Nat) (t : PoseidonMerkleTree) :
    PoseidonMerkleTree.new d = RustResult.ok t ↔ (1 ≤ d ∧ d ≤ MAX_LEVELS ∧ t = newTree d) := by
  have hML : MAX_LEVELS = 20 := rfl
  constructor
  · intro h
    by_cases hd : d > MAX_LEVELS
    · unfold PoseidonMerkleTree.new at h
      rw [if_pos hd] at h
      exact absurd h (by intro hc; cases hc)
    · by_cases h0 : d = 0
      · subst h0
        unfold PoseidonMerkleTree.new at h
        rw [if_neg hd] at h
        have hz : zeros ((0 + 4294967296 - 1) % 4294967296) = none := rfl
        rw [hz] at h
        exact absurd h (by intro hc; cases hc)
      · have hm : (d + 4294967296 - 1) % 4294967296 = d - 1 := by omega
        unfold PoseidonMerkleTree.new at h
        rw [if_neg hd, hm, zeros_eq_some (d - 1) (by omega)] at h
        cases h
        exact ⟨by omega, by omega, rfl⟩
  · rintro ⟨h1, h2, rfl⟩
    have hd : ¬ d > MAX_LEVELS := by omega
    have hm : (d + 4294967296 - 1) % 4294967296 = d - 1 := by omega
    unfold PoseidonMerkleTree.new
    rw [if_neg hd, hm, zeros_eq_some (d - 1) (by omega)]
    rfl

/-! ### The backward scan of is_known_root -/

theorem stepBack_lt (i : Nat) (h : i < MAX_LEVELS) : stepBack i < MAX_LEVELS := by
  have hML : MAX_LEVELS = 20 := rfl
  unfold stepBack
  split <;> omega

theorem iterStepBack_lt (m i : Nat) (h : i < MAX_LEVELS) : iterStepBack m i < MAX_LEVELS := by
  induction m with
  | zero => exact h
  | succ n ih => exact stepBack_lt _ ih

theorem iterStepBack_shift (m i : Nat) :
    iterStepBack m (stepBack i) = iterStepBack (m + 1) i := by
  induction m with
  | zero => rfl
  | succ n ih =>
    show stepBack (iterStepBack n (stepBack i)) = stepBack (iterStepBack (n + 1) i)
    rw [ih]

theorem iterStepBack_formula (m i : Nat) (hi : i < 20) (hm : m ≤ 20) :
    iterStepBack m i = (i + 20 - m) % 20 := by
  induction m with
  | zero =>
    show i = (i + 20) % 20
    omega
  | succ n ih =>
    show stepBack (iterStepBack n i) = (i + 20 - (n + 1)) % 20
    rw [ih (by omega)]
    unfold stepBack
    have hML : MAX_LEVELS = 20 := rfl
    split <;> omega

theorem iterStepBack_surj (i j : Nat) (hi : i < 20) (hj : j < 20) :
    ∃ m, m < 20 ∧ iterStepBack m i = j := by
  refine ⟨(i + 20 - j) % 20, by omega, ?_⟩
  rw [iterStepBack_formula _ _ hi (by omega)]
  omega

theorem isKnownRootLoop_iff (roots : List Bytes32) (root : Bytes32) :
    ∀ (fuel i : Nat),
      isKnownRootLoop roots root i fuel = true ↔
        ∃ m, m < fuel ∧ roots.getD (iterStepBack m i) zero32 = root := by
  intro fuel
  induction fuel with
  | zero =>
    intro i
    constructor
    · intro h; cases h
    · rintro ⟨m, hm, _⟩; omega
  | succ n ih =>
    intro i
    show (if roots.getD i zero32 = root then true
          else isKnownRootLoop roots root (stepBack i) n) = true ↔ _
    by_cases h : roots.getD i zero32 = root
    · rw [if_pos h]
      simp only [true_iff]
      exact ⟨0, by omega, h⟩
    · rw [if_neg h, ih (stepBack i)]
      constructor
      · rintro ⟨m, hm, hv⟩
        exact ⟨m + 1, by omega, by rw [← iterStepBack_shift]; exact hv⟩
      · rintro ⟨m, hm, hv⟩
        cases m with
        | zero => exact absurd hv h
        | succ m' => exact ⟨m', by omega, by rw [iterStepBack_shift]; exact hv⟩

theorem isKnownRoot_zero32 (t : PoseidonMerkleTree) :
    PoseidonMerkleTree.is_known_root t zero32 = false := by
  unfold PoseidonMerkleTree.is_known_root
  rw [if_pos rfl]

theorem isKnownRoot_iff (t : PoseidonMerkleTree) (c : Bytes32)
    (hc : t.current_root_index < MAX_LEVELS) :
    PoseidonMerkleTree.is_known_root t c = true ↔
      c ≠ zero32 ∧ ∃ s, s < MAX_LEVELS ∧ t.roots.getD s zero32 = c := by
  have hML : MAX_LEVELS = 20 := rfl
  unfold PoseidonMerkleTree.is_known_root
  by_cases h : c = zero32
  · rw [if_pos h]
    simp [h]
  · rw [if_neg h, isKnownRootLoop_iff]
    constructor
    · rintro ⟨m, hm, hv⟩
      exact ⟨h, iterStepBack m t.current_root_index,
        by rw [hML]; exact iterStepBack_lt m _ hc, hv⟩
    · rintro ⟨-, s, hs, hv⟩
      obtain ⟨m, hm, he⟩ := iterStepBack_surj t.current_root_index s (by omega) (by omega)
      exact ⟨m, by omega, by rw [he]; exact hv⟩

/-! ### Invariants of a run of successful insertions -/

theorem insertTrace_inv (H : Bytes32 → Bytes32 → Bytes32) :
    ∀ (leaves : List Bytes32) (t tf : PoseidonMerkleTree) (rs : List Bytes32),
      t.roots.length = MAX_LEVELS →
      t.current_root_index < MAX_LEVELS →
      insertTrace H t leaves = some (tf, rs) →
      rs.length = leaves.length ∧
      tf.current_root_index = (t.current_root_index + rs.length) % MAX_LEVELS ∧
      tf.roots.length = MAX_LEVELS ∧
      tf.next_index = t.next_index + rs.length ∧
      tf.levels = t.levels ∧
      (∀ s, s < MAX_LEVELS →
        (∀ j, 1 ≤ j → j ≤ rs.length → (t.current_root_index + j) % MAX_LEVELS ≠ s) →
        tf.roots.getD s zero32 = t.roots.getD s zero32) ∧
      (∀ m, m < rs.length → rs.length ≤ m + MAX_LEVELS →
        tf.roots.getD ((t.current_root_index + m + 1) % MAX_LEVELS) zero32 =
          rs.getD m zero32) := by
  have hML : MAX_LEVELS = 20 := rfl
  intro leaves
  induction leaves with
  | nil =>
    intro t tf rs hlen hcur htr
    unfold insertTrace at htr
    injection htr with h
    injection h with h1 h2
    subst h1; subst h2
    refine ⟨rfl, by simpa using (Nat.mod_eq_of_lt hcur).symm, hlen, rfl, rfl,
      fun s _ _ => rfl, fun m hm _ => by simp at hm⟩
  | cons leaf rest ih =>
    intro t tf rs hlen hcur htr
    unfold insertTrace at htr
    by_cases hfull : t.next_index = 2 ^ t.levels
    · rw [insert_full H t leaf hfull] at htr
      exact Option.noConfusion htr
    · rw [insert_not_full H t leaf hfull] at htr
      set c := t.current_root_index with hc
      set c1 := (t.current_root_index + 1) % MAX_LEVELS with hc1
      set root := (insertLoop H 0 t.levels t.next_index leaf t.filled_subtrees).1 with hroot
      set fs' := (insertLoop H 0 t.levels t.next_index leaf t.filled_subtrees).2 with hfs
      set t' : PoseidonMerkleTree :=
        { t with
            filled_subtrees := fs'
            roots := t.roots.set c1 root
            current_root_index := c1
            next_index := t.next_index + 1 } with ht'
      replace htr :
          (match insertTrace H t' rest with
           | some (tfx, rsx) =>
             some (tfx, t'.roots.getD t'.current_root_index zero32 :: rsx)
           | none => none) = some (tf, rs) := htr
      cases hrest : insertTrace H t' rest with
      | none => rw [hrest] at htr; exact Option.noConfusion htr
      | some p =>
        obtain ⟨tf', rs'⟩ := p
        rw [hrest] at htr
        replace htr : some (tf', t'.roots.getD t'.current_root_index zero32 :: rs')
            = some (tf, rs) := htr
        injection htr with h
        injection h with h1 h2
        subst h1
        have hlen' : t'.roots.length = MAX_LEVELS := by
          simpa [ht'] using hlen
        have hcur' : t'.current_root_index < MAX_LEVELS := by
          simp only [ht', hc1, hML]
          omega
        obtain ⟨i1, i2, i3, i4, i5, i6, i7⟩ := ih t' tf' rs' hlen' hcur' hrest
        have hr0 : t'.roots.getD t'.current_root_index zero32 = root := by
          simp only [ht']
          exact getD_set_eq t.roots c1 root zero32 (by rw [hlen, hc1, hML]; omega)
        subst h2
        have hlen_rs : (t'.roots.getD t'.current_root_index zero32 :: rs').length
            = rs'.length + 1 := rfl
        constructor
        · simp [i1]
        constructor
        · rw [hlen_rs, i2]
          simp only [ht', hc1, hML]
          omega
        constructor
        · exact i3
        constructor
        · rw [hlen_rs, i4]
          simp only [ht']
          omega
        constructor
        · rw [i5]
        constructor
        · intro s hs hnot
          rw [hlen_rs] at hnot
          have step1 : tf'.roots.getD s zero32 = t'.roots.getD s zero32 := by
            refine i6 s hs ?_
            intro j hj1 hj2
            have h3 := hnot (j + 1) (by omega) (by omega)
            simp only [ht', hc1, hML] at h3 ⊢
            simp only [hML] at hs
            omega
          rw [step1]
          have hne : c1 ≠ s := by
            have := hnot 1 (by omega) (by omega)
            simpa [hc1] using this
          simp only [ht']
          exact getD_set_ne t.roots c1 s root zero32 hne
        · intro m hm1 hm2
          rw [hlen_rs] at hm1 hm2
          cases m with
          | zero =>
            have hs1 : (c + 0 + 1) % MAX_LEVELS = c1 := by rw [hc1]
            rw [hs1]
            have step1 : tf'.roots.getD c1 zero32 = t'.roots.getD c1 zero32 := by
              refine i6 c1 (by rw [hc1, hML]; omega) ?_
              intro j hj1 hj2
              simp only [ht', hc1, hML]
              simp only [hML] at hm2
              omega
            rw [step1]
            show t'.roots.getD c1 zero32 =
              (t'.roots.getD t'.current_root_index zero32 :: rs').getD 0 zero32
            rw [hr0]
            rfl
          | succ m' =>
            have hidx : (c + (m' + 1) + 1) % MAX_LEVELS =
                (t'.current_root_index + m' + 1) % MAX_LEVELS := by
              simp only [ht', hc1, hML]
              omega
            rw [hidx]
            have := i7 m' (by omega) (by simp only [hML] at hm2 ⊢; omega)
            rw [this]
            rfl

theorem insertTrace_total (H : Bytes32 → Bytes32 → Bytes32) :
    ∀ (leaves : List Bytes32) (t : PoseidonMerkleTree),
      t.next_index + leaves.length ≤ 2 ^ t.levels →
      ∃ tf rs, insertTrace H t leaves = some (tf, rs) := by
  intro leaves
  induction leaves with
  | nil => intro t _; exact ⟨t, [], rfl⟩
  | cons leaf rest ih =>
    intro t hcap
    have hfull : ¬ t.next_index = 2 ^ t.levels := by
      simp only [List.length_cons] at hcap
      omega
    set t' : PoseidonMerkleTree :=
      { t with
          filled_subtrees := (insertLoop H 0 t.levels t.next_index leaf t.filled_subtrees).2
          roots := t.roots.set ((t.current_root_index + 1) % MAX_LEVELS)
                     (insertLoop H 0 t.levels t.next_index leaf t.filled_subtrees).1
          current_root_index := (t.current_root_index + 1) % MAX_LEVELS
          next_index := t.next_index + 1 } with ht'
    have hcap' : t'.next_index + rest.length ≤ 2 ^ t'.levels := by
      simp only [ht', List.length_cons] at hcap ⊢
      omega
    obtain ⟨tf, rs, hrest⟩ := ih t' hcap'
    refine ⟨tf, t'.roots.getD t'.current_root_index zero32 :: rs, ?_⟩
    unfold insertTrace
    rw [insert_not_full H t leaf hfull]
    show (match insertTrace H t' rest with
          | some (tfx, rsx) =>
            some (tfx, t'.roots.getD t'.current_root_index zero32 :: rsx)
          | none => none) = _
    rw [hrest]

theorem slot_covered (c0 k s : Nat) (h' : c0 < 20) (hs : s < 20) (hk : 20 ≤ k) :
    ∃ m, m < k ∧ k ≤ m + 20 ∧ (c0 + m + 1) % 20 = s := by
  refine ⟨k - 20 + ((s + 20 - ((c0 + k + 1) % 20)) % 20), by omega, by omega, by omega⟩

theorem newTree_roots_length (d : Nat) : (newTree d).roots.length = MAX_LEVELS := by
  show ((List.replicate MAX_LEVELS zero32).set 0 (zerosD (d - 1))).length = MAX_LEVELS
  rw [List.length_set, List.length_replicate]

theorem newTree_cursor_lt (d : Nat) : (newTree d).current_root_index < MAX_LEVELS := by
  show 0 < MAX_LEVELS
  rw [show MAX_LEVELS = 20 from rfl]
  omega

/-- A concrete compression function used to exercise the theorems on
closed inputs. -/
def H0 : Bytes32 → Bytes32 → Bytes32 := fun _ _ => List.replicate 32 1

/-! ### Claim theorems -/

/-- Claim C1 (amended): construction succeeds for every depth in
`1..=MAX_LEVELS`, crashes for depth `0` (the `u32` subtraction
`levels - 1` underflows before `zeros` is consulted), and fails with
`InvalidLevels` for depth `MAX_LEVELS + 1`. -/
theorem claim_C1_new_depth_range :
    (∀ d, 1 ≤ d → d ≤ MAX_LEVELS → (PoseidonMerkleTree.new d).isOk = true) ∧
    PoseidonMerkleTree.new 0 = RustResult.crashed ∧
    PoseidonMerkleTree.new (MAX_LEVELS + 1) =
      RustResult.err PoseidonMerkleTreeError.InvalidLevels := by
  refine ⟨?_, rfl, rfl⟩
  intro d h1 h2
  rw [(new_ok_iff d (newTree d)).mpr ⟨h1, h2, rfl⟩]
  rfl

/-- Claim C1 counterexample: at depth `0`, construction crashes (u32
underflow) rather than succeeding as the claim states. -/
theorem claim_C1_counterexample : PoseidonMerkleTree.new 0 = RustResult.crashed := rfl

theorem claim_C1_witness : (PoseidonMerkleTree.new 5).isOk = true :=
  claim_C1_new_depth_range.1 5 (by decide) (by decide)

/-- Claim C6: a successful `new(depth)` yields `frontier[i] = zeros(i)`
for `i < depth`, a MAX_LEVELS-slot root history that is zero except slot
`0 = zeros(depth - 1)`, cursor `0` and leaf count `0`. -/
theorem claim_C6_new_state (d : Nat) (t : PoseidonMerkleTree)
    (h : PoseidonMerkleTree.new d = RustResult.ok t) :
    t.filled_subtrees.length = d ∧
    (∀ i, i < d → t.filled_subtrees.getD i zero32 = zerosD i) ∧
    t.roots.length = MAX_LEVELS ∧
    t.roots.getD 0 zero32 = zerosD (d - 1) ∧
    (∀ s, 1 ≤ s → s < MAX_LEVELS → t.roots.getD s zero32 = zero32) ∧
    t.current_root_index = 0 ∧
    t.next_index = 0 := by
  obtain ⟨h1, h2, rfl⟩ := (new_ok_iff d t).mp h
  refine ⟨by simp [newTree], ?_, newTree_roots_length d, ?_, ?_, rfl, rfl⟩
  · intro i hi
    exact getD_map_range zerosD d i zero32 hi
  · show ((List.replicate MAX_LEVELS zero32).set 0 (zerosD (d - 1))).getD 0 zero32 =
      zerosD (d - 1)
    exact getD_set_eq _ 0 _ zero32 (by rw [List.length_replicate]; decide)
  · intro s hs1 hs2
    show ((List.replicate MAX_LEVELS zero32).set 0 (zerosD (d - 1))).getD s zero32 = zero32
    rw [getD_set_ne _ 0 s _ zero32 (by omega)]
    exact getD_replicate MAX_LEVELS s zero32 zero32 hs2

theorem claim_C6_witness :
    (newTree 3).current_root_index = 0 ∧ (newTree 3).roots.getD 0 zero32 = zerosD 2 := by
  have h := claim_C6_new_state 3 (newTree 3) (by rfl)
  exact ⟨h.2.2.2.2.2.1, h.2.2.2.1⟩

/-- Claim C7: a level whose carried index is odd leaves the whole frontier
unchanged (its slot is rewritten with its own value), and a level only
ever writes its own frontier slot, so only even levels can change the
frontier. -/
theorem claim_C7_odd_frontier_frame (H : Bytes32 → Bytes32 → Bytes32)
    (i idx : Nat) (cur : Bytes32) (fs : List Bytes32) :
    (idx % 2 = 1 → (insertStep H i idx cur fs).2.2 = fs) ∧
    (∀ j, j ≠ i → (insertStep H i idx cur fs).2.2.getD j zero32 = fs.getD j zero32) := by
  constructor
  · intro h
    rw [insertStep_odd H i idx cur fs h]
  · intro j hj
    rcases Nat.mod_two_eq_zero_or_one idx with h | h
    · rw [insertStep_even H i idx cur fs h]
      exact getD_set_ne fs i j cur zero32 (by omega)
    · rw [insertStep_odd H i idx cur fs h]

theorem claim_C7_witness : (insertStep H0 0 1 zero32 [zero32]).2.2 = [zero32] :=
  (claim_C7_odd_frontier_frame H0 0 1 zero32 [zero32]).1 (by decide)

/-- Claim C8: `zeros` returns a 32-byte constant for every level in
`0..=MAX_LEVELS` and crashes (the `panic!` arm, modelled by `none`) for
every level above it. -/
theorem claim_C8_zeros_total :
    (∀ i, i ≤ MAX_LEVELS →
      (zeros i).isSome = true ∧ ((zeros i).getD zero32).length = 32) ∧
    (∀ i, MAX_LEVELS < i → zeros i = none) := by
  have hML : MAX_LEVELS = 20 := rfl
  have hlen21 : zerosTable.length = 21 := rfl
  constructor
  · intro i hi
    have hall : ∀ j, j < 21 →
        (zeros j).isSome = true ∧ ((zeros j).getD zero32).length = 32 := by decide
    exact hall i (by omega)
  · intro i hi
    unfold zeros
    rw [List.get?_eq_none]
    omega

theorem claim_C8_witness :
    (zeros 20).isSome = true ∧ zeros 21 = none :=
  ⟨(claim_C8_zeros_total.1 20 (by decide)).1, claim_C8_zeros_total.2 21 (by decide)⟩

/-- Claim C9: immediately after a successful `new(d)` the empty-tree root
`zeros(d - 1)` (written into history slot 0 by the constructor) is
accepted by `is_known_root`, although no leaf has been inserted. -/
theorem claim_C9_empty_root_known (d : Nat) (t : PoseidonMerkleTree)
    (h : PoseidonMerkleTree.new d = RustResult.ok t) :
    PoseidonMerkleTree.is_known_root t (zerosD (d - 1)) = true := by
  obtain ⟨h1, h2, rfl⟩ := (new_ok_iff d t).mp h
  have hML : MAX_LEVELS = 20 := rfl
  rw [isKnownRoot_iff (newTree d) (zerosD (d - 1)) (newTree_cursor_lt d)]
  refine ⟨?_, 0, by omega, ?_⟩
  · have hnz : ∀ j, j < 21 → zerosD j ≠ zero32 := by decide
    exact hnz (d - 1) (by omega)
  · show ((List.replicate MAX_LEVELS zero32).set 0 (zerosD (d - 1))).getD 0 zero32 =
      zerosD (d - 1)
    exact getD_set_eq _ 0 _ zero32 (by rw [List.length_replicate]; decide)

theorem claim_C9_witness :
    PoseidonMerkleTree.is_known_root (newTree 3) (zerosD 2) = true :=
  claim_C9_empty_root_known 3 (newTree 3) (by rfl)

/-- Claim C10: every tree reachable from a successful construction by
successful insertions keeps `current_root_index < MAX_LEVELS` and exactly
MAX_LEVELS history slots, so the history slot written by `insert` and
every slot inspected by the scan of `is_known_root` are in bounds. -/
theorem claim_C10_history_bounds (H : Bytes32 → Bytes32 → Bytes32)
    (t : PoseidonMerkleTree) (h : Reachable H t) :
    t.roots.length = MAX_LEVELS ∧
    t.current_root_index < MAX_LEVELS ∧
    (t.current_root_index + 1) % MAX_LEVELS < t.roots.length ∧
    (∀ m, iterStepBack m t.current_root_index < t.roots.length) := by
  have hML : MAX_LEVELS = 20 := rfl
  induction h with
  | base d t0 hnew =>
    obtain ⟨h1, h2, rfl⟩ := (new_ok_iff d t0).mp hnew
    refine ⟨newTree_roots_length d, newTree_cursor_lt d, ?_, ?_⟩
    · rw [newTree_roots_length d, hML]
      omega
    · intro m
      rw [newTree_roots_length d]
      exact iterStepBack_lt m _ (newTree_cursor_lt d)
  | step t0 leaf n t' hreach hins ih =>
    obtain ⟨i1, i2, i3, i4⟩ := ih
    by_cases hfull : t0.next_index = 2 ^ t0.levels
    · rw [insert_full H t0 leaf hfull] at hins
      injection hins with ha hb
      exact RustResult.noConfusion ha
    · rw [insert_not_full H t0 leaf hfull] at hins
      injection hins with ha hb
      subst hb
      have hlen' : (t0.roots.set ((t0.current_root_index + 1) % MAX_LEVELS)
          (insertLoop H 0 t0.levels t0.next_index leaf t0.filled_subtrees).1).length
          = MAX_LEVELS := by
        rw [List.length_set]
        exact i1
      have hcur' : (t0.current_root_index + 1) % MAX_LEVELS < MAX_LEVELS := by
        rw [hML]
        omega
      exact ⟨hlen', hcur', by rw [hlen', hML]; omega,
        fun m => by rw [hlen']; exact iterStepBack_lt m _ hcur'⟩

theorem claim_C10_witness :
    (newTree 3).roots.length = MAX_LEVELS ∧
      (newTree 3).current_root_index < MAX_LEVELS := by
  have h := claim_C10_history_bounds H0 (newTree 3) (Reachable.base 3 (newTree 3) (by rfl))
  exact ⟨h.1, h.2.1⟩

/-- Claim C3: `is_known_root` rejects the all-zero candidate immediately
for every tree state, and otherwise answers exactly whether one of the up
to MAX_LEVELS slots visited by the backward wrap-around scan from the
cursor holds the candidate; since the scan visits every slot index, this
is membership among all MAX_LEVELS history slots. -/
theorem claim_C3_is_known_root_scan (t : PoseidonMerkleTree) (c : Bytes32)
    (hc : t.current_root_index < MAX_LEVELS) :
    PoseidonMerkleTree.is_known_root t zero32 = false ∧
    (PoseidonMerkleTree.is_known_root t c = true ↔
      c ≠ zero32 ∧ ∃ m, m < MAX_LEVELS ∧
        t.roots.getD (iterStepBack m t.current_root_index) zero32 = c) ∧
    (PoseidonMerkleTree.is_known_root t c = true ↔
      c ≠ zero32 ∧ ∃ s, s < MAX_LEVELS ∧ t.roots.getD s zero32 = c) := by
  refine ⟨isKnownRoot_zero32 t, ?_, isKnownRoot_iff t c hc⟩
  by_cases hzc : c = zero32
  · subst hzc
    rw [isKnownRoot_zero32 t]
    simp
  · unfold PoseidonMerkleTree.is_known_root
    rw [if_neg hzc, isKnownRootLoop_iff]
    exact ⟨fun hm => ⟨hzc, hm⟩, fun h => h.2⟩

theorem claim_C3_witness :
    PoseidonMerkleTree.is_known_root (newTree 3) zero32 = false :=
  (claim_C3_is_known_root_scan (newTree 3) (zerosD 2) (newTree_cursor_lt 3)).1

/-- Claim C2: on a non-full tree, `insert` performs exactly the per-level
walk the spec describes (even index: hash with `zeros(i)` on the right
and record the pre-hash left operand in the frontier; odd index: hash
with `frontier[i]` on the left; then halve the index), appends the new
root at `(history_cursor + 1) mod MAX_LEVELS`, increments the leaf count
and returns the post-increment count; and in scenario B (depth 3, insert
`0x01...01` then `0x02...02`) the final `frontier[1]` is the hash of the
two leaves. -/
theorem claim_C2_insert_algorithm :
    (∀ (H : Bytes32 → Bytes32 → Bytes32) (t : PoseidonMerkleTree) (leaf : Bytes32),
      t.next_index < 2 ^ t.levels →
      PoseidonMerkleTree.insert H t leaf = insertSpec H t leaf) ∧
    (∀ (H : Bytes32 → Bytes32 → Bytes32) (t0 : PoseidonMerkleTree),
      PoseidonMerkleTree.new 3 = RustResult.ok t0 →
      (PoseidonMerkleTree.insert H
          (PoseidonMerkleTree.insert H t0 (List.replicate 32 1)).2
          (List.replicate 32 2)).2.filled_subtrees.getD 1 zero32 =
        H (List.replicate 32 1) (List.replicate 32 2)) := by
  constructor
  · intro H t leaf hlt
    rw [insert_not_full H t leaf (by omega)]
    unfold insertSpec
    rw [insertLoop_eq_specWalk]
  · intro H t0 h0
    obtain ⟨-, -, rfl⟩ := (new_ok_iff 3 t0).mp h0
    simp [PoseidonMerkleTree.insert, insertLoop, insertStep, newTree, MAX_LEVELS,
      List.range_succ]

theorem claim_C2_witness :
    PoseidonMerkleTree.insert H0 (newTree 3) zero32 = insertSpec H0 (newTree 3) zero32 ∧
    (PoseidonMerkleTree.insert H0
        (PoseidonMerkleTree.insert H0 (newTree 3) (List.replicate 32 1)).2
        (List.replicate 32 2)).2.filled_subtrees.getD 1 zero32 =
      H0 (List.replicate 32 1) (List.replicate 32 2) :=
  ⟨claim_C2_insert_algorithm.1 H0 (newTree 3) zero32 (by decide),
   claim_C2_insert_algorithm.2 H0 (newTree 3) (by rfl)⟩

/-- Claim C4: `insert` fails with `MerkleTreeFull` exactly when the leaf
count has reached `2 ^ depth`, a failed attempt leaves every field of the
tree unchanged, and from a fresh tree exactly `2 ^ depth` insertions
succeed before every further attempt fails. -/
theorem claim_C4_full_behaviour (H : Bytes32 → Bytes32 → Bytes32) :
    (∀ (t : PoseidonMerkleTree) (leaf : Bytes32),
      (PoseidonMerkleTree.insert H t leaf).1 =
          RustResult.err PoseidonMerkleTreeError.MerkleTreeFull ↔
        t.next_index = 2 ^ t.levels) ∧
    (∀ (t : PoseidonMerkleTree) (leaf : Bytes32),
      t.next_index = 2 ^ t.levels → (PoseidonMerkleTree.insert H t leaf).2 = t) ∧
    (∀ (d : Nat) (t0 : PoseidonMerkleTree),
      PoseidonMerkleTree.new d = RustResult.ok t0 →
      ∀ leaves : List Bytes32, leaves.length = 2 ^ d →
        ∃ tf rs, insertTrace H t0 leaves = some (tf, rs) ∧
          ∀ leaf2 : Bytes32,
            (PoseidonMerkleTree.insert H tf leaf2).1 =
              RustResult.err PoseidonMerkleTreeError.MerkleTreeFull) := by
  refine ⟨?_, ?_, ?_⟩
  · intro t leaf
    constructor
    · intro h
      by_contra hne
      rw [insert_not_full H t leaf hne] at h
      exact RustResult.noConfusion h
    · intro h
      rw [insert_full H t leaf h]
  · intro t leaf h
    rw [insert_full H t leaf h]
  · intro d t0 hnew leaves hlen
    obtain ⟨h1, h2, rfl⟩ := (new_ok_iff d t0).mp hnew
    have hcap : (newTree d).next_index + leaves.length ≤ 2 ^ (newTree d).levels := by
      show 0 + leaves.length ≤ 2 ^ d
      omega
    obtain ⟨tf, rs, htr⟩ := insertTrace_total H leaves (newTree d) hcap
    refine ⟨tf, rs, htr, ?_⟩
    intro leaf2
    obtain ⟨i1, -, -, i4, i5, -, -⟩ := insertTrace_inv H leaves (newTree d) tf rs
      (newTree_roots_length d) (newTree_cursor_lt d) htr
    have hfull : tf.next_index = 2 ^ tf.levels := by
      rw [i4, i5, i1]
      show 0 + leaves.length = 2 ^ d
      omega
    rw [insert_full H tf leaf2 hfull]

/-- A concrete full tree (depth 1, both leaves used) exercising the
capacity check. -/
def tFull : PoseidonMerkleTree :=
  { levels := 1
    filled_subtrees := [zero32]
    roots := List.replicate MAX_LEVELS zero32
    current_root_index := 0
    next_index := 2 }

theorem claim_C4_witness :
    (PoseidonMerkleTree.insert H0 tFull zero32).2 = tFull :=
  (claim_C4_full_behaviour H0).2.1 tFull zero32 (by decide)

/-- Claim C5: after a run of successful insertions from a fresh tree, if
at most MAX_LEVELS roots were produced all of them (the non-zero ones)
are recognized by `is_known_root`; and any root produced more than
MAX_LEVELS insertions before the most recent one is no longer recognized,
provided the produced roots are pairwise distinct. -/
theorem claim_C5_root_window (H : Bytes32 → Bytes32 → Bytes32) (d : Nat)
    (t0 tf : PoseidonMerkleTree) (leaves rs : List Bytes32)
    (hnew : PoseidonMerkleTree.new d = RustResult.ok t0)
    (htr : insertTrace H t0 leaves = some (tf, rs)) :
    (rs.length ≤ MAX_LEVELS →
      ∀ m, m < rs.length → rs.getD m zero32 ≠ zero32 →
        PoseidonMerkleTree.is_known_root tf (rs.getD m zero32) = true) ∧
    (rs.Nodup →
      ∀ m, m + MAX_LEVELS < rs.length →
        PoseidonMerkleTree.is_known_root tf (rs.getD m zero32) = false) := by
  have hML : MAX_LEVELS = 20 := rfl
  obtain ⟨hd1, hd2, rfl⟩ := (new_ok_iff d t0).mp hnew
  obtain ⟨i1, i2, i3, i4, i5, i6, i7⟩ := insertTrace_inv H leaves (newTree d) tf rs
    (newTree_roots_length d) (newTree_cursor_lt d) htr
  have hcur0 : (newTree d).current_root_index = 0 := rfl
  have hcurf : tf.current_root_index < MAX_LEVELS := by
    rw [i2, hML]
    omega
  constructor
  · intro hk m hm hnz
    rw [isKnownRoot_iff tf _ hcurf]
    refine ⟨hnz, ((newTree d).current_root_index + m + 1) % MAX_LEVELS,
      by rw [hML]; omega, ?_⟩
    exact i7 m hm (by omega)
  · intro hnd m hm
    by_cases hzc : rs.getD m zero32 = zero32
    · rw [hzc]
      exact isKnownRoot_zero32 tf
    · cases hb : PoseidonMerkleTree.is_known_root tf (rs.getD m zero32) with
      | false => rfl
      | true =>
        exfalso
        obtain ⟨-, s, hs, hslot⟩ := (isKnownRoot_iff tf _ hcurf).mp hb
        obtain ⟨m', hm'1, hm'2, hm'3⟩ := slot_covered 0 rs.length s (by omega)
          (by omega) (by omega)
        have hslot' := i7 m' hm'1 (by omega)
        have hidx : ((newTree d).current_root_index + m' + 1) % MAX_LEVELS = s := by
          rw [hcur0, hML]
          omega
        rw [hidx] at hslot'
        have he : rs.getD m zero32 = rs.getD m' zero32 := by
          rw [← hslot, hslot']
        have hmm : m = m' := nodup_getD_inj rs zero32 hnd m m' (by omega) (by omega) he
        omega

/-- The depth-1 tree after one insertion of the all-zero leaf under
`H0`. -/
def t1c : PoseidonMerkleTree := (PoseidonMerkleTree.insert H0 (newTree 1) zero32).2

/-- The 32-byte value with every byte `1`. -/
def oneLeaf : Bytes32 := List.replicate 32 1

theorem claim_C5_witness :
    PoseidonMerkleTree.is_known_root t1c oneLeaf = true :=
  (claim_C5_root_window H0 1 (newTree 1) t1c [zero32] [oneLeaf] (by rfl) (by rfl)).1
    (by decide) 0 (by decide) (by decide)
